import Mathlib

/-!
# Verification of the linear system-identification notebook

This file gives a shallow embedding, over exact arithmetic, of the numeric
functions of `demo_system_id.ipynb`:

* `SysId.make_state_trace` — the trajectory simulator (over `ℚ`), including the
  numpy broadcasting behaviour of the state-update line
  `state_trace[i + 1] = a_matrix @ state_trace[i] + (b_matrix * inpt[i]).squeeze()`;
* `SysId.identify_system` — the least-squares identifier, with the external call
  `np.linalg.lstsq` modelled by its documented contract (the minimum-norm
  least-squares solution);
* `SysId.transform_state_trace` — the change-of-basis map on state traces;
* `RandSys.roots2coeffs`, `RandSys.make_ccf_system_from_eigenvalues`,
  `RandSys.make_random_system_from_eigenvalues`, `RandSys.make_random_system` —
  the random system generator (over `ℝ`/`ℂ`), with the ambient random draws
  passed in as explicit parameters.

Floating-point numbers are idealised as exact rationals (for the identification
pipeline, whose claims are about exact recovery) or reals (for the generator,
whose eigenvalue data is genuinely real/complex).  Theorems about the claims of
the specification follow the definitions.
-/

namespace SysId

open Matrix

/-! ## Frobenius inner product and squared norm -/

/-- Squared Frobenius norm of a rational matrix: the sum of the squares of all
entries.  `np.linalg.lstsq` minimises this quantity of the residual. -/
def frobSq {a b : ℕ} (M : Matrix (Fin a) (Fin b) ℚ) : ℚ :=
  ∑ i, ∑ j, (M i j) ^ 2

/-- Frobenius (entrywise) inner product of two rational matrices. -/
def finner {a b : ℕ} (M N : Matrix (Fin a) (Fin b) ℚ) : ℚ :=
  ∑ i, ∑ j, M i j * N i j

lemma frobSq_nonneg {a b : ℕ} (M : Matrix (Fin a) (Fin b) ℚ) : 0 ≤ frobSq M := by
  refine Finset.sum_nonneg fun i _ => Finset.sum_nonneg fun j _ => sq_nonneg _

lemma frobSq_eq_zero_iff {a b : ℕ} {M : Matrix (Fin a) (Fin b) ℚ} :
    frobSq M = 0 ↔ M = 0 := by
  constructor
  · intro h
    ext i j
    have h1 : ∀ i ∈ Finset.univ, (0:ℚ) ≤ ∑ j, (M i j) ^ 2 :=
      fun i _ => Finset.sum_nonneg fun j _ => sq_nonneg _
    have h2 := (Finset.sum_eq_zero_iff_of_nonneg h1).mp h i (Finset.mem_univ i)
    have h3 : ∀ j ∈ Finset.univ, (0:ℚ) ≤ (M i j) ^ 2 := fun j _ => sq_nonneg _
    have h4 := (Finset.sum_eq_zero_iff_of_nonneg h3).mp h2 j (Finset.mem_univ j)
    simpa using sq_eq_zero_iff.mp h4
  · rintro rfl
    simp [frobSq]

lemma finner_self {a b : ℕ} (M : Matrix (Fin a) (Fin b) ℚ) :
    finner M M = frobSq M := by
  simp [finner, frobSq, sq]

lemma finner_comm {a b : ℕ} (M N : Matrix (Fin a) (Fin b) ℚ) :
    finner M N = finner N M := by
  simp [finner, mul_comm]

lemma finner_add_right {a b : ℕ} (M N P : Matrix (Fin a) (Fin b) ℚ) :
    finner M (N + P) = finner M N + finner M P := by
  simp [finner, mul_add, Finset.sum_add_distrib]

lemma finner_sub_right {a b : ℕ} (M N P : Matrix (Fin a) (Fin b) ℚ) :
    finner M (N - P) = finner M N - finner M P := by
  simp [finner, mul_sub, Finset.sum_sub_distrib]

lemma finner_smul_right {a b : ℕ} (c : ℚ) (M N : Matrix (Fin a) (Fin b) ℚ) :
    finner M (c • N) = c * finner M N := by
  simp [finner, Finset.mul_sum, smul_eq_mul]
  refine Finset.sum_congr rfl fun i _ => Finset.sum_congr rfl fun j _ => by ring

lemma finner_zero_right {a b : ℕ} (M : Matrix (Fin a) (Fin b) ℚ) :
    finner M 0 = 0 := by
  simp [finner]

lemma frobSq_add {a b : ℕ} (M N : Matrix (Fin a) (Fin b) ℚ) :
    frobSq (M + N) = frobSq M + 2 * finner M N + frobSq N := by
  simp only [frobSq, finner, Finset.mul_sum, ← Finset.sum_add_distrib]
  refine Finset.sum_congr rfl fun i _ => ?_
  refine Finset.sum_congr rfl fun j _ => ?_
  simp [Matrix.add_apply]
  ring

lemma frobSq_sub {a b : ℕ} (M N : Matrix (Fin a) (Fin b) ℚ) :
    frobSq (M - N) = frobSq M - 2 * finner M N + frobSq N := by
  simp only [frobSq, finner, Finset.mul_sum, ← Finset.sum_add_distrib,
    ← Finset.sum_sub_distrib]
  refine Finset.sum_congr rfl fun i _ => Finset.sum_congr rfl fun j _ => ?_
  simp [Matrix.sub_apply]
  ring

lemma frobSq_smul {a b : ℕ} (c : ℚ) (M : Matrix (Fin a) (Fin b) ℚ) :
    frobSq (c • M) = c ^ 2 * frobSq M := by
  simp only [frobSq, Finset.mul_sum]
  refine Finset.sum_congr rfl fun i _ => Finset.sum_congr rfl fun j _ => ?_
  simp [Matrix.smul_apply, smul_eq_mul]
  ring

/-- Key adjunction for the Frobenius inner product:
`⟪D * E, R⟫ = ⟪E, Dᵀ * R⟫`. -/
lemma finner_mul_left {t m k : ℕ} (D : Matrix (Fin t) (Fin m) ℚ)
    (E : Matrix (Fin m) (Fin k) ℚ) (R : Matrix (Fin t) (Fin k) ℚ) :
    finner (D * E) R = finner E (Dᵀ * R) := by
  have lhs : finner (D * E) R = ∑ i, ∑ j, ∑ x, D i x * E x j * R i j := by
    unfold finner
    refine Finset.sum_congr rfl fun i _ => Finset.sum_congr rfl fun j _ => ?_
    rw [Matrix.mul_apply, Finset.sum_mul]
  have rhs : finner E (Dᵀ * R) = ∑ x, ∑ j, ∑ i, D i x * E x j * R i j := by
    unfold finner
    refine Finset.sum_congr rfl fun x _ => Finset.sum_congr rfl fun j _ => ?_
    rw [Matrix.mul_apply, Finset.mul_sum]
    refine Finset.sum_congr rfl fun i _ => ?_
    rw [Matrix.transpose_apply]
    ring
  rw [lhs, rhs]
  refine Eq.trans (Finset.sum_congr rfl fun i _ => Finset.sum_comm) ?_
  refine Eq.trans (Finset.sum_comm) ?_
  exact Finset.sum_congr rfl fun x _ => Finset.sum_comm

/-! ## The contract of `np.linalg.lstsq`

`identify_system` calls the external routine `np.linalg.lstsq(lsq_a, lsq_b)`.
That routine is library code, not part of this repository; we model it by its
documented contract: it returns the matrix `M` minimising the squared Frobenius
norm of `lsq_a * M - lsq_b`, and among all minimisers the one of least
Frobenius norm.  That solution is the unique matrix satisfying the normal
equations whose columns lie in the row space of `lsq_a`; we define `lstsq` as
that matrix and prove the minimising and minimum-norm properties below. -/

/-- Predicate: `M` satisfies the normal equations of the least-squares problem
`D * ? ≈ Y` and its columns lie in the row space of `D`.  This pair of
conditions characterises the minimum-norm least-squares solution returned by
`np.linalg.lstsq`. -/
def IsLstsqSol {t m k : ℕ} (D : Matrix (Fin t) (Fin m) ℚ)
    (Y : Matrix (Fin t) (Fin k) ℚ) (M : Matrix (Fin m) (Fin k) ℚ) : Prop :=
  Dᵀ * D * M = Dᵀ * Y ∧ ∃ Z : Matrix (Fin t) (Fin k) ℚ, M = Dᵀ * Z

lemma col_mul {t m k : ℕ} (A : Matrix (Fin t) (Fin m) ℚ)
    (B : Matrix (Fin m) (Fin k) ℚ) (j : Fin k) :
    (fun i => (A * B) i j) = A.mulVec (fun x => B x j) := by
  funext i
  simp [Matrix.mul_apply, Matrix.mulVec, Matrix.dotProduct]

lemma range_tmul_self {t m : ℕ} (D : Matrix (Fin t) (Fin m) ℚ) :
    LinearMap.range (Dᵀ * D).mulVecLin = LinearMap.range Dᵀ.mulVecLin := by
  apply Submodule.eq_of_le_of_finrank_eq
  · rintro _ ⟨v, rfl⟩
    exact ⟨D.mulVec v, by simp [Matrix.mulVecLin_apply, Matrix.mulVec_mulVec]⟩
  · have h : (Dᵀ * D).rank = Dᵀ.rank := by
      rw [Matrix.rank_transpose_mul_self, Matrix.rank_transpose]
    exact h

lemma range_inf_ker {t m : ℕ} (D : Matrix (Fin t) (Fin m) ℚ) :
    LinearMap.range Dᵀ.mulVecLin ⊓ LinearMap.ker D.mulVecLin = ⊥ := by
  refine (Submodule.eq_bot_iff _).mpr fun v hv => ?_
  obtain ⟨⟨z, hz⟩, hker⟩ := Submodule.mem_inf.mp hv
  rw [LinearMap.mem_ker, Matrix.mulVecLin_apply] at hker
  rw [Matrix.mulVecLin_apply] at hz
  have hself : Matrix.dotProduct v v = 0 := by
    nth_rewrite 2 [← hz]
    rw [Matrix.dotProduct_mulVec, Matrix.vecMul_transpose, hker,
      Matrix.zero_dotProduct]
  exact Matrix.dotProduct_self_eq_zero.mp hself

lemma range_sup_ker {t m : ℕ} (D : Matrix (Fin t) (Fin m) ℚ) :
    LinearMap.range Dᵀ.mulVecLin ⊔ LinearMap.ker D.mulVecLin = ⊤ := by
  apply Submodule.eq_top_of_disjoint
  · have h1 : Module.finrank ℚ (LinearMap.range Dᵀ.mulVecLin) = D.rank := by
      have : Dᵀ.rank = D.rank := Matrix.rank_transpose D
      exact this
    have h2 : Module.finrank ℚ (LinearMap.range D.mulVecLin)
        + Module.finrank ℚ (LinearMap.ker D.mulVecLin)
        = Module.finrank ℚ (Fin m → ℚ) :=
      LinearMap.finrank_range_add_finrank_ker D.mulVecLin
    have h3 : Module.finrank ℚ (LinearMap.range D.mulVecLin) = D.rank := rfl
    rw [h1, ← h3, h2]
  · exact disjoint_iff.mpr (range_inf_ker D)

lemma exists_factor_of_cols_mem {t m k : ℕ} {D : Matrix (Fin t) (Fin m) ℚ}
    {M : Matrix (Fin m) (Fin k) ℚ}
    (h : ∀ j, (fun i => M i j) ∈ LinearMap.range Dᵀ.mulVecLin) :
    ∃ Z : Matrix (Fin t) (Fin k) ℚ, M = Dᵀ * Z := by
  choose z hz using h
  refine ⟨Matrix.of fun i j => z j i, ?_⟩
  ext i j
  have h1 := congrFun (hz j) i
  rw [Matrix.mulVecLin_apply] at h1
  rw [← h1, Matrix.mul_apply, Matrix.mulVec, Matrix.dotProduct]
  rfl

/-- Existence half of the characterisation of the `np.linalg.lstsq` output. -/
lemma exists_isLstsqSol {t m k : ℕ} (D : Matrix (Fin t) (Fin m) ℚ)
    (Y : Matrix (Fin t) (Fin k) ℚ) : ∃ M, IsLstsqSol D Y M := by
  have hcol : ∀ j : Fin k, ∃ w : Fin m → ℚ,
      w ∈ LinearMap.range Dᵀ.mulVecLin ∧
      (Dᵀ * D).mulVec w = fun i => (Dᵀ * Y) i j := by
    intro j
    have hmem : (fun i => (Dᵀ * Y) i j) ∈ LinearMap.range (Dᵀ * D).mulVecLin := by
      rw [range_tmul_self]
      exact ⟨fun x => Y x j, by rw [Matrix.mulVecLin_apply, ← col_mul]⟩
    obtain ⟨w0, hw0⟩ := hmem
    rw [Matrix.mulVecLin_apply] at hw0
    have hw0top : w0 ∈ LinearMap.range Dᵀ.mulVecLin ⊔ LinearMap.ker D.mulVecLin := by
      rw [range_sup_ker]; trivial
    obtain ⟨s, hs, kk, hk, hsk⟩ := Submodule.mem_sup.mp hw0top
    refine ⟨s, hs, ?_⟩
    rw [LinearMap.mem_ker, Matrix.mulVecLin_apply] at hk
    have h1 : (Dᵀ * D).mulVec kk = 0 := by
      rw [← Matrix.mulVec_mulVec, hk, Matrix.mulVec_zero]
    have h2 : (Dᵀ * D).mulVec s = (Dᵀ * D).mulVec w0 - (Dᵀ * D).mulVec kk := by
      rw [← Matrix.mulVec_sub, ← hsk, add_sub_cancel_right]
    rw [h2, h1, hw0, sub_zero]
  choose w hwS hwEq using hcol
  have hfac : ∃ Z : Matrix (Fin t) (Fin k) ℚ,
      (Matrix.of fun i j => w j i) = Dᵀ * Z :=
    exists_factor_of_cols_mem fun j => hwS j
  obtain ⟨Z, hZ⟩ := hfac
  refine ⟨Matrix.of fun i j => w j i, ?_, Z, hZ⟩
  ext i j
  have h1 := congrFun (hwEq j) i
  have h2 : (Dᵀ * D * Matrix.of fun i j => w j i) i j
      = (Dᵀ * D).mulVec (w j) i := by
    rw [Matrix.mul_apply, Matrix.mulVec, Matrix.dotProduct]
    rfl
  rw [h2, h1]

/-- If `(Dᵀ * D) * E = 0` then already `D * E = 0`. -/
lemma mul_eq_zero_of_tmul_eq_zero {t m k : ℕ} {D : Matrix (Fin t) (Fin m) ℚ}
    {E : Matrix (Fin m) (Fin k) ℚ} (h : Dᵀ * D * E = 0) : D * E = 0 := by
  ext i j
  have h1 : (fun i => (Dᵀ * D * E) i j) = (Dᵀ * D).mulVec (fun x => E x j) :=
    col_mul _ _ j
  rw [h] at h1
  have h2 : (fun x => E x j) ∈ LinearMap.ker (Dᵀ * D).mulVecLin := by
    rw [LinearMap.mem_ker, Matrix.mulVecLin_apply, ← h1]
    rfl
  rw [Matrix.ker_mulVecLin_transpose_mul_self] at h2
  rw [LinearMap.mem_ker, Matrix.mulVecLin_apply] at h2
  have h3 : (fun i => (D * E) i j) = D.mulVec (fun x => E x j) := col_mul _ _ j
  have h4 := congrFun h3 i
  rw [h4, h2]
  rfl

/-- Uniqueness half of the characterisation of the `np.linalg.lstsq` output. -/
lemma isLstsqSol_unique {t m k : ℕ} {D : Matrix (Fin t) (Fin m) ℚ}
    {Y : Matrix (Fin t) (Fin k) ℚ} {M N : Matrix (Fin m) (Fin k) ℚ}
    (hM : IsLstsqSol D Y M) (hN : IsLstsqSol D Y N) : M = N := by
  obtain ⟨hM1, ZM, hZM⟩ := hM
  obtain ⟨hN1, ZN, hZN⟩ := hN
  have hE : Dᵀ * D * (M - N) = 0 := by
    rw [Matrix.mul_sub, hM1, hN1, sub_self]
  have hDE : D * (M - N) = 0 := mul_eq_zero_of_tmul_eq_zero hE
  have hfac : M - N = Dᵀ * (ZM - ZN) := by
    rw [Matrix.mul_sub, hZM, hZN]
  -- each column of `M - N` lies in the (trivial) intersection of row space
  -- and kernel, hence vanishes
  have hcols : ∀ j, (fun i => (M - N) i j) = (0 : Fin m → ℚ) := by
    intro j
    have hmemS : (fun i => (M - N) i j) ∈ LinearMap.range Dᵀ.mulVecLin := by
      refine ⟨fun x => (ZM - ZN) x j, ?_⟩
      rw [Matrix.mulVecLin_apply, ← col_mul, ← hfac]
    have hmemK : (fun i => (M - N) i j) ∈ LinearMap.ker D.mulVecLin := by
      rw [LinearMap.mem_ker, Matrix.mulVecLin_apply, ← col_mul, hDE]
      rfl
    have := range_inf_ker D
    have hmem : (fun i => (M - N) i j)
        ∈ LinearMap.range Dᵀ.mulVecLin ⊓ LinearMap.ker D.mulVecLin :=
      Submodule.mem_inf.mpr ⟨hmemS, hmemK⟩
    rw [this] at hmem
    simpa using hmem
  have : M - N = 0 := by
    ext i j
    exact congrFun (hcols j) i
  exact sub_eq_zero.mp this

/-- The minimum-norm least-squares solution: the model of `np.linalg.lstsq`. -/
noncomputable def lstsq {t m k : ℕ} (D : Matrix (Fin t) (Fin m) ℚ)
    (Y : Matrix (Fin t) (Fin k) ℚ) : Matrix (Fin m) (Fin k) ℚ :=
  Classical.choose (exists_isLstsqSol D Y)

lemma lstsq_isLstsqSol {t m k : ℕ} (D : Matrix (Fin t) (Fin m) ℚ)
    (Y : Matrix (Fin t) (Fin k) ℚ) : IsLstsqSol D Y (lstsq D Y) :=
  Classical.choose_spec (exists_isLstsqSol D Y)

lemma lstsq_eq_of_isLstsqSol {t m k : ℕ} {D : Matrix (Fin t) (Fin m) ℚ}
    {Y : Matrix (Fin t) (Fin k) ℚ} {M : Matrix (Fin m) (Fin k) ℚ}
    (h : IsLstsqSol D Y M) : lstsq D Y = M :=
  isLstsqSol_unique (lstsq_isLstsqSol D Y) h

/-- A solution of the normal equations minimises the Frobenius residual. -/
lemma residual_le_of_isLstsqSol {t m k : ℕ} {D : Matrix (Fin t) (Fin m) ℚ}
    {Y : Matrix (Fin t) (Fin k) ℚ} {M : Matrix (Fin m) (Fin k) ℚ}
    (h : IsLstsqSol D Y M) (N : Matrix (Fin m) (Fin k) ℚ) :
    frobSq (D * M - Y) ≤ frobSq (D * N - Y) := by
  have key : D * N - Y = (D * M - Y) + D * (N - M) := by
    rw [Matrix.mul_sub]
    abel
  rw [key, frobSq_add]
  have hcross : finner (D * M - Y) (D * (N - M)) = 0 := by
    rw [finner_comm, finner_mul_left]
    have hz : Dᵀ * (D * M - Y) = 0 := by
      rw [Matrix.mul_sub, ← Matrix.mul_assoc, h.1, sub_self]
    rw [hz, finner_zero_right]
  rw [hcross]
  have := frobSq_nonneg (D * (N - M))
  linarith

/-- Conversely, any minimiser of the Frobenius residual satisfies the normal
equations. -/
lemma normal_eq_of_minimizes {t m k : ℕ} {D : Matrix (Fin t) (Fin m) ℚ}
    {Y : Matrix (Fin t) (Fin k) ℚ} {M : Matrix (Fin m) (Fin k) ℚ}
    (h : ∀ N, frobSq (D * M - Y) ≤ frobSq (D * N - Y)) :
    Dᵀ * D * M = Dᵀ * Y := by
  by_contra hne
  have hG : Dᵀ * (D * M - Y) ≠ 0 := by
    intro h0
    apply hne
    rw [Matrix.mul_sub, ← Matrix.mul_assoc] at h0
    exact sub_eq_zero.mp h0
  set G : Matrix (Fin m) (Fin k) ℚ := Dᵀ * (D * M - Y) with hGdef
  have hGpos : 0 < frobSq G := by
    rcases lt_or_eq_of_le (frobSq_nonneg G) with h1 | h1
    · exact h1
    · exact absurd (frobSq_eq_zero_iff.mp h1.symm) hG
  have hinner : finner (D * G) (D * M - Y) = frobSq G := by
    rw [finner_mul_left, ← hGdef, finner_self]
  have hDGpos : 0 < frobSq (D * G) := by
    rcases lt_or_eq_of_le (frobSq_nonneg (D * G)) with h1 | h1
    · exact h1
    · exfalso
      have hz : D * G = 0 := frobSq_eq_zero_iff.mp h1.symm
      rw [hz] at hinner
      have : finner (0 : Matrix (Fin t) (Fin k) ℚ) (D * M - Y) = 0 := by
        rw [finner_comm, finner_zero_right]
      rw [this] at hinner
      exact absurd hinner.symm (ne_of_gt hGpos)
  set c : ℚ := frobSq G / frobSq (D * G) with hc
  have hcpos : 0 < c := div_pos hGpos hDGpos
  have hcmul : c * frobSq (D * G) = frobSq G :=
    div_mul_cancel₀ _ (ne_of_gt hDGpos)
  have hcalc : frobSq (D * (M - c • G) - Y) = frobSq (D * M - Y) - c * frobSq G := by
    have e1 : D * (M - c • G) - Y = (D * M - Y) - c • (D * G) := by
      rw [Matrix.mul_sub, Matrix.mul_smul]
      abel
    rw [e1, frobSq_sub, frobSq_smul, finner_smul_right]
    have e2 : finner (D * M - Y) (D * G) = frobSq G := by
      rw [finner_comm]
      exact hinner
    rw [e2]
    have e3 : c ^ 2 * frobSq (D * G) = c * frobSq G := by
      rw [sq, mul_assoc, hcmul]
    rw [e3]
    ring
  have hle := h (M - c • G)
  rw [hcalc] at hle
  have : 0 < c * frobSq G := mul_pos hcpos hGpos
  linarith

/-- Among all minimisers of the residual, the characterised solution has the
least squared Frobenius norm: the minimum-norm property of `np.linalg.lstsq`. -/
lemma norm_le_of_isLstsqSol {t m k : ℕ} {D : Matrix (Fin t) (Fin m) ℚ}
    {Y : Matrix (Fin t) (Fin k) ℚ} {M : Matrix (Fin m) (Fin k) ℚ}
    (h : IsLstsqSol D Y M) (N : Matrix (Fin m) (Fin k) ℚ)
    (hN : frobSq (D * N - Y) = frobSq (D * M - Y)) : frobSq M ≤ frobSq N := by
  have hNmin : ∀ P, frobSq (D * N - Y) ≤ frobSq (D * P - Y) := by
    intro P
    rw [hN]
    exact residual_le_of_isLstsqSol h P
  have hNnormal : Dᵀ * D * N = Dᵀ * Y := normal_eq_of_minimizes hNmin
  have hE : Dᵀ * D * (N - M) = 0 := by
    rw [Matrix.mul_sub, hNnormal, h.1, sub_self]
  have hDE : D * (N - M) = 0 := mul_eq_zero_of_tmul_eq_zero hE
  obtain ⟨_, Z, hZ⟩ := h
  have hsplit : frobSq N = frobSq M + 2 * finner M (N - M) + frobSq (N - M) := by
    conv_lhs => rw [show N = M + (N - M) by abel]
    rw [frobSq_add]
  have hcross : finner M (N - M) = 0 := by
    nth_rewrite 1 [hZ]
    rw [finner_mul_left, Matrix.transpose_transpose, hDE, finner_zero_right]
  rw [hsplit, hcross]
  have := frobSq_nonneg (N - M)
  linarith

/-! ## Full column rank -/

/-- Full column rank of the regression matrix: the map `v ↦ D *ᵥ v` is
injective, i.e. the columns of `D` are linearly independent. -/
def fullColRank {t m : ℕ} (D : Matrix (Fin t) (Fin m) ℚ) : Prop :=
  Function.Injective D.mulVec

lemma fullColRank_iff_isUnit_det {t m : ℕ} {D : Matrix (Fin t) (Fin m) ℚ} :
    fullColRank D ↔ IsUnit (Dᵀ * D).det := by
  rw [← Matrix.isUnit_iff_isUnit_det, ← Matrix.mulVec_injective_iff_isUnit]
  constructor
  · intro hinj v w hvw
    apply hinj
    have h1 : (fun x => Dᵀ.mulVec (D.mulVec x)) v = (fun x => Dᵀ.mulVec (D.mulVec x)) w := by
      simp only [Matrix.mulVec_mulVec]
      exact hvw
    have h2 : D.mulVec v - D.mulVec w ∈ LinearMap.ker Dᵀ.mulVecLin := by
      rw [LinearMap.mem_ker, Matrix.mulVecLin_apply, Matrix.mulVec_sub]
      simp only at h1
      rw [sub_eq_zero]
      exact h1
    -- `Dᵀ (Dv - Dw) = 0` with `Dv - Dw` in the column space of `D` forces 0
    obtain ⟨u, hu⟩ : ∃ u, D.mulVec u = D.mulVec v - D.mulVec w :=
      ⟨v - w, by rw [Matrix.mulVec_sub]⟩
    rw [LinearMap.mem_ker, Matrix.mulVecLin_apply] at h2
    have hself : Matrix.dotProduct (D.mulVec v - D.mulVec w) (D.mulVec v - D.mulVec w) = 0 := by
      nth_rewrite 2 [← hu]
      rw [Matrix.dotProduct_mulVec]
      have hvm := Matrix.vecMul_transpose Dᵀ (D.mulVec v - D.mulVec w)
      rw [Matrix.transpose_transpose] at hvm
      rw [hvm, h2, Matrix.zero_dotProduct]
    have := Matrix.dotProduct_self_eq_zero.mp hself
    rw [sub_eq_zero] at this
    exact this
  · intro hinj v w hvw
    apply hinj
    rw [← Matrix.mulVec_mulVec, ← Matrix.mulVec_mulVec, hvw]

lemma range_eq_top_of_fullColRank {t m : ℕ} {D : Matrix (Fin t) (Fin m) ℚ}
    (h : fullColRank D) : LinearMap.range Dᵀ.mulVecLin = ⊤ := by
  apply Submodule.eq_top_of_finrank_eq
  have h1 : Module.finrank ℚ (LinearMap.range Dᵀ.mulVecLin) = D.rank :=
    Matrix.rank_transpose D
  have hinj : Function.Injective D.mulVecLin := by
    intro v w hvw
    apply h
    simpa [Matrix.mulVecLin_apply] using hvw
  have h2 : D.rank = Module.finrank ℚ (Fin m → ℚ) := by
    have := LinearMap.finrank_range_of_inj hinj
    exact this
  rw [h1, h2]

/-- For exact data `D * M₀ = Y` with a full-column-rank regressor, the
minimum-norm least-squares solution is exactly `M₀`. -/
lemma lstsq_exact {t m k : ℕ} {D : Matrix (Fin t) (Fin m) ℚ}
    {Y : Matrix (Fin t) (Fin k) ℚ} {M₀ : Matrix (Fin m) (Fin k) ℚ}
    (hrank : fullColRank D) (hM : D * M₀ = Y) : lstsq D Y = M₀ := by
  apply lstsq_eq_of_isLstsqSol
  constructor
  · rw [Matrix.mul_assoc, hM]
  · apply exists_factor_of_cols_mem
    intro j
    rw [range_eq_top_of_fullColRank hrank]
    trivial

/-! ## `make_state_trace` -/

/-- Model of the numpy expression `(b_matrix * inpt[i]).squeeze()` followed by
the row assignment `state_trace[i + 1] = ...`.

`b_matrix * inpt[i]` broadcasts the length-`p` input row against the `n × p`
matrix elementwise, giving the `n × p` array `fun j k => B j k * u k`.
`.squeeze()` drops the axes of length one, and the result is then assigned into
the row `state_trace[i + 1]` of length `n`.  This combination succeeds exactly
when `p = 1`: then the squeezed value is the length-`n` vector
`fun j => B j 0 * u 0`.  For `p ≠ 1` the squeezed array either keeps its second
axis (when `n ≠ 1`) or is a length-`p` vector (when `n = 1`), and either way it
cannot be broadcast into a length-`n` row, so numpy raises an error, modelled
here by `none`. -/
def bTimesU {n p : ℕ} (B : Matrix (Fin n) (Fin p) ℚ) (u : Fin p → ℚ) :
    Option (Fin n → ℚ) :=
  if h : p = 1 then
    some (fun j => B j ⟨0, by omega⟩ * u ⟨0, by omega⟩)
  else none

/-- The state reached after `i` iterations of the loop of `make_state_trace`:
`state_trace[i + 1] = a_matrix @ state_trace[i] + (b_matrix * inpt[i]).squeeze()`.
`none` models a numpy broadcast error raised inside the loop (see `bTimesU`). -/
def traceUpTo {n p T : ℕ} (A : Matrix (Fin n) (Fin n) ℚ)
    (B : Matrix (Fin n) (Fin p) ℚ) (U : Matrix (Fin T) (Fin p) ℚ)
    (x0 : Fin n → ℚ) : ℕ → Option (Fin n → ℚ)
  | 0 => some x0
  | i + 1 =>
    if h : i < T then
      match traceUpTo A B U x0 i, bTimesU B (U ⟨i, h⟩) with
      | some x, some bu => some (A.mulVec x + bu)
      | _, _ => none
    else none

/-- Function `make_state_trace` from the notebook, over `ℚ`: run the system and record
the state at each of the `T + 1` time steps.  The initial state defaults to
the origin when none is provided.  The returned matrix is
`state_trace : (T+1) × n`; `none` models the numpy error raised by the update
line when the input dimension is incompatible (see `bTimesU`). -/
def make_state_trace {n p T : ℕ} (a_matrix : Matrix (Fin n) (Fin n) ℚ)
    (b_matrix : Matrix (Fin n) (Fin p) ℚ) (inpt : Matrix (Fin T) (Fin p) ℚ)
    (initial_state : Option (Fin n → ℚ)) :
    Option (Matrix (Fin (T + 1)) (Fin n) ℚ) :=
  if h : ∀ i : Fin (T + 1),
      (traceUpTo a_matrix b_matrix inpt (initial_state.getD 0) i.val).isSome then
    some (Matrix.of fun i j =>
      ((traceUpTo a_matrix b_matrix inpt (initial_state.getD 0) i.val).get (h i)) j)
  else none

lemma traceUpTo_succ_of_isSome {n p T : ℕ} {A : Matrix (Fin n) (Fin n) ℚ}
    {B : Matrix (Fin n) (Fin p) ℚ} {U : Matrix (Fin T) (Fin p) ℚ}
    {x0 : Fin n → ℚ} (i : ℕ) (hi : i < T)
    (hs : (traceUpTo A B U x0 (i + 1)).isSome) :
    ∃ x bu, traceUpTo A B U x0 i = some x ∧ bTimesU B (U ⟨i, hi⟩) = some bu ∧
      traceUpTo A B U x0 (i + 1) = some (A.mulVec x + bu) := by
  rw [traceUpTo, dif_pos hi] at hs ⊢
  rcases h1 : traceUpTo A B U x0 i with _ | x
  · rw [h1] at hs
    simp at hs
  · rcases h2 : bTimesU B (U ⟨i, hi⟩) with _ | bu
    · rw [h1, h2] at hs
      simp at hs
    · exact ⟨x, bu, rfl, rfl, rfl⟩

lemma make_state_trace_eq {n p T : ℕ} {A : Matrix (Fin n) (Fin n) ℚ}
    {B : Matrix (Fin n) (Fin p) ℚ} {U : Matrix (Fin T) (Fin p) ℚ}
    {x0 : Option (Fin n → ℚ)} {X : Matrix (Fin (T + 1)) (Fin n) ℚ}
    (h : make_state_trace A B U x0 = some X) :
    ∀ i : Fin (T + 1), traceUpTo A B U (x0.getD 0) i.val = some (fun j => X i j) := by
  unfold make_state_trace at h
  by_cases hc : ∀ i : Fin (T + 1), (traceUpTo A B U (x0.getD 0) i.val).isSome
  · rw [dif_pos hc] at h
    intro i
    have hX := Option.some.inj h
    obtain ⟨v, hv⟩ := Option.isSome_iff_exists.mp (hc i)
    rw [hv]
    congr 1
    funext j
    rw [← hX]
    simp only [Matrix.of_apply]
    have hgv : (traceUpTo A B U (x0.getD 0) i.val).get (hc i) = v :=
      Option.some.inj ((Option.some_get (hc i)).trans hv)
    rw [hgv]
  · rw [dif_neg hc] at h
    cases h

/-- The defining recurrence of a successfully produced state trace. -/
lemma make_state_trace_rec {n p T : ℕ} {A : Matrix (Fin n) (Fin n) ℚ}
    {B : Matrix (Fin n) (Fin p) ℚ} {U : Matrix (Fin T) (Fin p) ℚ}
    {x0 : Option (Fin n → ℚ)} {X : Matrix (Fin (T + 1)) (Fin n) ℚ}
    (h : make_state_trace A B U x0 = some X) :
    (∀ j, X 0 j = (x0.getD 0) j) ∧
    ∀ i : Fin T, ∃ bu, bTimesU B (U i) = some bu ∧
      ∀ j, X i.succ j = A.mulVec (fun k => X i.castSucc k) j + bu j := by
  have key := make_state_trace_eq h
  constructor
  · intro j
    have h0 := key 0
    have hval : ((0 : Fin (T + 1)) : ℕ) = 0 := rfl
    rw [hval, traceUpTo] at h0
    have := Option.some.inj h0
    exact (congrFun this j).symm
  · intro i
    have hsucc := key i.succ
    have hcast := key i.castSucc
    have hival : (i.succ : Fin (T + 1)).val = i.val + 1 := rfl
    rw [hival] at hsucc
    obtain ⟨x, bu, hx, hbu, heq⟩ := traceUpTo_succ_of_isSome i.val i.isLt
      (by rw [hsucc]; rfl)
    have hcastval : (i.castSucc : Fin (T + 1)).val = i.val := rfl
    rw [hcastval] at hcast
    rw [hcast] at hx
    have hxv : x = fun k => X i.castSucc k := (Option.some.inj hx).symm
    have hU : (⟨i.val, i.isLt⟩ : Fin T) = i := Fin.ext rfl
    rw [hU] at hbu
    refine ⟨bu, hbu, fun j => ?_⟩
    rw [hsucc] at heq
    have := congrFun (Option.some.inj heq) j
    rw [this, hxv]
    rfl

/-- Closed form of the state sequence for a single-input system (`p = 1`),
used to exhibit the value produced by `make_state_trace`. -/
def pureTrace {n T : ℕ} (A : Matrix (Fin n) (Fin n) ℚ) (B : Matrix (Fin n) (Fin 1) ℚ)
    (U : Matrix (Fin T) (Fin 1) ℚ) (x0 : Fin n → ℚ) : ℕ → (Fin n → ℚ)
  | 0 => x0
  | i + 1 =>
    if h : i < T then
      A.mulVec (pureTrace A B U x0 i) + fun j => B j 0 * U ⟨i, h⟩ 0
    else 0

lemma traceUpTo_p1 {n T : ℕ} (A : Matrix (Fin n) (Fin n) ℚ)
    (B : Matrix (Fin n) (Fin 1) ℚ) (U : Matrix (Fin T) (Fin 1) ℚ)
    (x0 : Fin n → ℚ) : ∀ i, i ≤ T →
    traceUpTo A B U x0 i = some (pureTrace A B U x0 i) := by
  intro i
  induction i with
  | zero => intro _; rfl
  | succ i ih =>
    intro hiT
    have hi : i < T := by omega
    rw [traceUpTo, dif_pos hi, ih (by omega)]
    have hbu : bTimesU B (U ⟨i, hi⟩) = some (fun j => B j 0 * U ⟨i, hi⟩ 0) := by
      rw [bTimesU, dif_pos rfl]
      rfl
    rw [hbu]
    rw [pureTrace, dif_pos hi]

/-- For a single-input system the simulator always succeeds, returning the
trace generated by the linear recurrence. -/
lemma make_state_trace_p1 {n T : ℕ} (A : Matrix (Fin n) (Fin n) ℚ)
    (B : Matrix (Fin n) (Fin 1) ℚ) (U : Matrix (Fin T) (Fin 1) ℚ)
    (x0 : Option (Fin n → ℚ)) :
    make_state_trace A B U x0
      = some (Matrix.of fun i j => pureTrace A B U (x0.getD 0) i.val j) := by
  have hall : ∀ i : Fin (T + 1),
      (traceUpTo A B U (x0.getD 0) i.val).isSome := by
    intro i
    rw [traceUpTo_p1 A B U _ i.val (by omega)]
    rfl
  unfold make_state_trace
  rw [dif_pos hall]
  congr 1
  ext i j
  simp only [Matrix.of_apply]
  have h := traceUpTo_p1 A B U (x0.getD 0) i.val (by omega)
  have hg : (traceUpTo A B U (x0.getD 0) i.val).get (hall i)
      = pureTrace A B U (x0.getD 0) i.val :=
    Option.some.inj ((Option.some_get (hall i)).trans h)
  rw [hg]

/-- Full column rank for a square regression matrix follows from an invertible
determinant. -/
lemma fullColRank_of_isUnit_det {m : ℕ} {D : Matrix (Fin m) (Fin m) ℚ}
    (h : D.det ≠ 0) : fullColRank D :=
  Matrix.mulVec_injective_iff_isUnit.mpr
    ((Matrix.isUnit_iff_isUnit_det D).mpr (isUnit_iff_ne_zero.mpr h))

/-! ## `identify_system` -/

/-- The regression design matrix
`lsq_a = np.concatenate((state_trace[:-1], inpt), axis=1)`: row `i` is the
concatenation of the state `X[i]` and the input `U[i]`. -/
def lsqA {n p T : ℕ} (X : Matrix (Fin (T + 1)) (Fin n) ℚ)
    (U : Matrix (Fin T) (Fin p) ℚ) : Matrix (Fin T) (Fin (n + p)) ℚ :=
  Matrix.of fun i => Fin.append (fun j => X i.castSucc j) (fun j => U i j)

/-- The regression target `lsq_b = state_trace[1:, :]`: row `i` is `X[i+1]`. -/
def lsqB {n T : ℕ} (X : Matrix (Fin (T + 1)) (Fin n) ℚ) :
    Matrix (Fin T) (Fin n) ℚ :=
  Matrix.of fun i j => X i.succ j

/-- Function `identify_system` from the notebook: solve the least-squares problem
`lsq_a @ ab ≈ lsq_b` (via `np.linalg.lstsq`, modelled by `lstsq`) and return
`a_identified = ab_identified[:n_states]` (an `n × n` block) and
`b_identified = ab_identified[n_states:]` (a `p × n` block). -/
noncomputable def identify_system {n p T : ℕ}
    (state_trace : Matrix (Fin (T + 1)) (Fin n) ℚ)
    (inpt : Matrix (Fin T) (Fin p) ℚ) :
    Matrix (Fin n) (Fin n) ℚ × Matrix (Fin p) (Fin n) ℚ :=
  (Matrix.of fun i j => lstsq (lsqA state_trace inpt) (lsqB state_trace) (Fin.castAdd p i) j,
   Matrix.of fun i j => lstsq (lsqA state_trace inpt) (lsqB state_trace) (Fin.natAdd n i) j)

/-- Vertical stacking of the two blocks returned by `identify_system`,
recovering the full `(n+p) × n` coefficient matrix `ab_identified`. -/
def stackAB {n p : ℕ} (a : Matrix (Fin n) (Fin n) ℚ) (b : Matrix (Fin p) (Fin n) ℚ) :
    Matrix (Fin (n + p)) (Fin n) ℚ :=
  Matrix.of fun i j => Fin.addCases (fun i1 => a i1 j) (fun i1 => b i1 j) i

lemma stackAB_identify_system {n p T : ℕ} (X : Matrix (Fin (T + 1)) (Fin n) ℚ)
    (U : Matrix (Fin T) (Fin p) ℚ) :
    stackAB (identify_system X U).1 (identify_system X U).2
      = lstsq (lsqA X U) (lsqB X) := by
  ext i j
  cases i using Fin.addCases with
  | left i1 => simp [stackAB, identify_system]
  | right i1 => simp [stackAB, identify_system]

/-- Function `transform_state_trace` from the notebook:
`transformed_state_trace = state_trace @ t_mat.T`, where `t_mat` is the given
transformation, or the random draw `np.random.rand(n, n) + I` when none is
given (the draw is passed here as the explicit parameter `rand_t`). -/
def transform_state_trace {n T : ℕ} (state_trace : Matrix (Fin (T + 1)) (Fin n) ℚ)
    (transformation_matrix : Option (Matrix (Fin n) (Fin n) ℚ))
    (rand_t : Matrix (Fin n) (Fin n) ℚ) : Matrix (Fin (T + 1)) (Fin n) ℚ :=
  state_trace * (transformation_matrix.getD (rand_t + 1))ᵀ

/-- If the trace satisfies the linear recurrence for `(A, B)` then the stacked
block matrix `[Aᵀ; Bᵀ]` solves the regression exactly. -/
lemma lsqA_mul_stack {n p T : ℕ} {X : Matrix (Fin (T + 1)) (Fin n) ℚ}
    {U : Matrix (Fin T) (Fin p) ℚ} {A : Matrix (Fin n) (Fin n) ℚ}
    {B : Matrix (Fin n) (Fin p) ℚ}
    (hrec : ∀ (i : Fin T) (j : Fin n),
      X i.succ j = A.mulVec (fun k => X i.castSucc k) j
        + B.mulVec (fun k => U i k) j) :
    lsqA X U * stackAB Aᵀ Bᵀ = lsqB X := by
  ext i j
  rw [Matrix.mul_apply, Fin.sum_univ_add]
  have hleft : ∀ x : Fin n,
      lsqA X U i (Fin.castAdd p x) * stackAB Aᵀ Bᵀ (Fin.castAdd p x) j
        = A j x * X i.castSucc x := by
    intro x
    simp [lsqA, stackAB, Fin.append_left, mul_comm]
  have hright : ∀ x : Fin p,
      lsqA X U i (Fin.natAdd n x) * stackAB Aᵀ Bᵀ (Fin.natAdd n x) j
        = B j x * U i x := by
    intro x
    simp [lsqA, stackAB, Fin.append_right, mul_comm]
  rw [Finset.sum_congr rfl fun x _ => hleft x,
    Finset.sum_congr rfl fun x _ => hright x]
  have := (hrec i j).symm
  simpa [lsqB, Matrix.mulVec, Matrix.dotProduct] using this

/-- For an exact full-column-rank regression the identifier returns the pair
`(Aᵀ, Bᵀ)` — the transposes of the true system matrices. -/
lemma identify_system_exact {n p T : ℕ} {X : Matrix (Fin (T + 1)) (Fin n) ℚ}
    {U : Matrix (Fin T) (Fin p) ℚ} {A : Matrix (Fin n) (Fin n) ℚ}
    {B : Matrix (Fin n) (Fin p) ℚ}
    (hrec : ∀ (i : Fin T) (j : Fin n),
      X i.succ j = A.mulVec (fun k => X i.castSucc k) j
        + B.mulVec (fun k => U i k) j)
    (hrank : fullColRank (lsqA X U)) :
    identify_system X U = (Aᵀ, Bᵀ) := by
  have hl : lstsq (lsqA X U) (lsqB X) = stackAB Aᵀ Bᵀ :=
    lstsq_exact hrank (lsqA_mul_stack hrec)
  unfold identify_system
  rw [hl]
  refine Prod.ext ?_ ?_
  · ext i j
    simp [stackAB]
  · ext i j
    simp [stackAB]

/-- When `make_state_trace` returns a trace, every step satisfies the linear
recurrence `X[i+1] = A·X[i] + B·U[i]` (matrix-vector form; a returned trace
forces `p = 1`, where the broadcast value agrees with `B·U[i]`). -/
lemma make_state_trace_rec_mulVec {n p T : ℕ} {A : Matrix (Fin n) (Fin n) ℚ}
    {B : Matrix (Fin n) (Fin p) ℚ} {U : Matrix (Fin T) (Fin p) ℚ}
    {x0 : Option (Fin n → ℚ)} {X : Matrix (Fin (T + 1)) (Fin n) ℚ}
    (htrace : make_state_trace A B U x0 = some X) :
    ∀ (i : Fin T) (j : Fin n),
      X i.succ j = A.mulVec (fun k => X i.castSucc k) j
        + B.mulVec (fun k => U i k) j := by
  obtain ⟨h0, hsucc⟩ := make_state_trace_rec htrace
  intro i j
  obtain ⟨bu, hbu, heq⟩ := hsucc i
  rw [bTimesU] at hbu
  by_cases hp : p = 1
  · subst hp
    rw [dif_pos rfl] at hbu
    rw [heq j]
    congr 1
    rw [← Option.some.inj hbu]
    simp [Matrix.mulVec, Matrix.dotProduct, Fin.sum_univ_one, Fin.mk_zero]
  · rw [dif_neg hp] at hbu
    cases hbu

/-- With more than one input column (`p ≠ 1`) and at least one step, the
update line raises a numpy broadcast error: no trace is returned. -/
lemma make_state_trace_fail {n p T : ℕ} (hp : p ≠ 1) (hT : 0 < T)
    (A : Matrix (Fin n) (Fin n) ℚ) (B : Matrix (Fin n) (Fin p) ℚ)
    (U : Matrix (Fin T) (Fin p) ℚ) (x0 : Option (Fin n → ℚ)) :
    make_state_trace A B U x0 = none := by
  unfold make_state_trace
  rw [dif_neg]
  intro hall
  have h1 := hall ⟨1, by omega⟩
  have hb : bTimesU B (U ⟨0, hT⟩) = none := by
    rw [bTimesU, dif_neg hp]
  have ht : traceUpTo A B U (x0.getD 0) 1 = none := by
    show traceUpTo A B U (x0.getD 0) (0 + 1) = none
    rw [traceUpTo, dif_pos hT]
    rw [show traceUpTo A B U (x0.getD 0) 0 = some (x0.getD 0) from rfl, hb]
  rw [show ((⟨1, by omega⟩ : Fin (T + 1)) : ℕ) = 1 from rfl, ht] at h1
  simp at h1

/-- The residual of the relation `X[i+1] ≈ Â·X[i] + B̂·U[i]` read in the
column (matrix-times-vector) convention of the specification, summed in
squared Euclidean norm over all steps. -/
def residC {n p T : ℕ} (X : Matrix (Fin (T + 1)) (Fin n) ℚ)
    (U : Matrix (Fin T) (Fin p) ℚ) (Ah : Matrix (Fin n) (Fin n) ℚ)
    (Bh : Matrix (Fin n) (Fin p) ℚ) : ℚ :=
  ∑ i, ∑ j, (X i.succ j - Ah.mulVec (fun k => X i.castSucc k) j
    - Bh.mulVec (fun k => U i k) j) ^ 2

/-! ## A concrete instance

The system `a_known = [[0, 1], [0.3, 0.2]]`, `b_known = [0, 1]` of the
notebook, driven by the impulse input `U = [1, 0, 0]` from the origin, with
the transformation `t_mat = [[3, 1], [5, 2]]` of the coordinate-change demo.
These are used to instantiate (and to refute, where the specification
overstates) the identification claims. -/

def exA : Matrix (Fin 2) (Fin 2) ℚ := !![0, 1; 3/10, 1/5]

def exB : Matrix (Fin 2) (Fin 1) ℚ := !![0; 1]

def exU : Matrix (Fin 3) (Fin 1) ℚ := !![1; 0; 0]

/-- The state trace of `(exA, exB)` under `exU` from the origin. -/
def exX : Matrix (Fin 4) (Fin 2) ℚ := !![0, 0; 0, 1; 1, 1/5; 1/5, 17/50]

def exT : Matrix (Fin 2) (Fin 2) ℚ := !![3, 1; 5, 2]

/-- The transformed trace `exX * exTᵀ`. -/
def exTX : Matrix (Fin 4) (Fin 2) ℚ := !![0, 0; 1, 2; 16/5, 27/5; 47/50, 42/25]

lemma pureTrace_succ {n T : ℕ} (A : Matrix (Fin n) (Fin n) ℚ)
    (B : Matrix (Fin n) (Fin 1) ℚ) (U : Matrix (Fin T) (Fin 1) ℚ)
    (x0 : Fin n → ℚ) (i : ℕ) (h : i < T) :
    pureTrace A B U x0 (i + 1)
      = A.mulVec (pureTrace A B U x0 i) + fun j => B j 0 * U ⟨i, h⟩ 0 := by
  rw [pureTrace, dif_pos h]

lemma exPure : ∀ i : Fin 4, ∀ j, pureTrace exA exB exU 0 i.val j = exX i j := by
  have p0 : pureTrace exA exB exU 0 0 = (fun _ => 0) := rfl
  have p1 : pureTrace exA exB exU 0 1 = ![0, 1] := by
    show pureTrace exA exB exU 0 (0 + 1) = _
    rw [pureTrace_succ _ _ _ _ 0 (by norm_num), p0]
    funext j
    fin_cases j <;>
      norm_num [exA, exB, exU, Matrix.mulVec, Matrix.dotProduct, Fin.sum_univ_two]
  have p2 : pureTrace exA exB exU 0 2 = ![1, 1/5] := by
    show pureTrace exA exB exU 0 (1 + 1) = _
    rw [pureTrace_succ _ _ _ _ 1 (by norm_num), p1]
    funext j
    fin_cases j <;>
      norm_num [exA, exB, exU, Matrix.mulVec, Matrix.dotProduct, Fin.sum_univ_two]
  have p3 : pureTrace exA exB exU 0 3 = ![1/5, 17/50] := by
    show pureTrace exA exB exU 0 (2 + 1) = _
    rw [pureTrace_succ _ _ _ _ 2 (by norm_num), p2]
    funext j
    fin_cases j <;>
      norm_num [exA, exB, exU, Matrix.mulVec, Matrix.dotProduct, Fin.sum_univ_two]
  intro i j
  fin_cases i
  · rw [show ((⟨0, by omega⟩ : Fin 4) : ℕ) = 0 from rfl, p0]
    fin_cases j <;> norm_num [exX]
  · rw [show ((⟨1, by omega⟩ : Fin 4) : ℕ) = 1 from rfl, p1]
    fin_cases j <;> norm_num [exX]
  · rw [show ((⟨2, by omega⟩ : Fin 4) : ℕ) = 2 from rfl, p2]
    fin_cases j <;> norm_num [exX]
  · rw [show ((⟨3, by omega⟩ : Fin 4) : ℕ) = 3 from rfl, p3]
    fin_cases j <;> norm_num [exX]

/-- The simulator, run on the concrete instance, produces `exX`. -/
lemma exTrace : make_state_trace exA exB exU none = some exX := by
  rw [make_state_trace_p1]
  congr 1
  ext i j
  simp only [Matrix.of_apply]
  exact exPure i j

lemma exX_rec : ∀ (i : Fin 3) (j : Fin 2),
    exX i.succ j = exA.mulVec (fun k => exX i.castSucc k) j
      + exB.mulVec (fun k => exU i k) j := by
  intro i j
  fin_cases i <;> fin_cases j <;>
    norm_num [exA, exB, exU, exX, Matrix.mulVec, Matrix.dotProduct,
      Fin.sum_univ_two, Fin.sum_univ_one, Fin.succ, Fin.castSucc, Fin.castAdd,
      Fin.castLE]

lemma exD_eq : lsqA exX exU = !![0, 0, 1; 0, 1, 0; 1, 1/5, 0] := by
  ext i j
  fin_cases i <;> fin_cases j <;> rfl

lemma exRank : fullColRank (lsqA exX exU) := by
  rw [exD_eq]
  apply fullColRank_of_isUnit_det
  norm_num [Matrix.det_fin_three]

lemma exIdentify : identify_system exX exU = (exAᵀ, exBᵀ) :=
  identify_system_exact exX_rec exRank

lemma exTinv : exT⁻¹ = !![2, -1; -5, 3] := by
  apply Matrix.inv_eq_right_inv
  ext i j
  fin_cases i <;> fin_cases j <;>
    norm_num [exT, Matrix.mul_apply, Fin.sum_univ_two]

lemma exTAiT : exT * exA * exT⁻¹ = !![-77/5, 93/10; -129/5, 78/5] := by
  rw [exTinv]
  ext i j
  fin_cases i <;> fin_cases j <;>
    norm_num [exT, exA, Matrix.mul_apply, Fin.sum_univ_two]

lemma exTX_eq : transform_state_trace exX (some exT) 0 = exTX := by
  have hT : exTᵀ = !![3, 5; 1, 2] := by
    ext i j
    fin_cases i <;> fin_cases j <;> rfl
  show exX * exTᵀ = exTX
  rw [hT]
  ext i j
  fin_cases i <;> fin_cases j <;>
    norm_num [exX, exTX, Matrix.mul_apply, Fin.sum_univ_two]

lemma exTXD_eq : lsqA exTX exU = !![0, 0, 1; 1, 2, 0; 16/5, 27/5, 0] := by
  ext i j
  fin_cases i <;> fin_cases j <;> rfl

lemma exTXrank : fullColRank (lsqA exTX exU) := by
  rw [exTXD_eq]
  apply fullColRank_of_isUnit_det
  norm_num [Matrix.det_fin_three]

/-- The transformed trace satisfies the recurrence of the similar system
`(T·A·T⁻¹, T·B) = ([[-77/5, 93/10], [-129/5, 78/5]], [1; 2])`. -/
lemma exTX_rec : ∀ (i : Fin 3) (j : Fin 2),
    exTX i.succ j
      = (!![-77/5, 93/10; -129/5, 78/5] : Matrix (Fin 2) (Fin 2) ℚ).mulVec
          (fun k => exTX i.castSucc k) j
        + (!![1; 2] : Matrix (Fin 2) (Fin 1) ℚ).mulVec (fun k => exU i k) j := by
  intro i j
  fin_cases i <;> fin_cases j <;>
    norm_num [exU, exTX, Matrix.mulVec, Matrix.dotProduct, Fin.sum_univ_two,
      Fin.sum_univ_one, Fin.succ, Fin.castSucc, Fin.castAdd, Fin.castLE]

lemma exTXIdentify : identify_system exTX exU
    = ((!![-77/5, 93/10; -129/5, 78/5] : Matrix (Fin 2) (Fin 2) ℚ)ᵀ,
       (!![1; 2] : Matrix (Fin 2) (Fin 1) ℚ)ᵀ) :=
  identify_system_exact exTX_rec exTXrank

/-! ## A second concrete instance, with two inputs

The system `A = [[0, 1], [0, 0]]`, `B = I₂` with input sequence
`U = [(1,0), (0,1), (1,1), (0,0)]` from the origin; its exact trace is `c3X`.
Here `p = n = 2`, so the two blocks returned by `identify_system` have equal
shapes and the transposition convention is observable. -/

def c3A : Matrix (Fin 2) (Fin 2) ℚ := !![0, 1; 0, 0]

def c3B : Matrix (Fin 2) (Fin 2) ℚ := 1

def c3U : Matrix (Fin 4) (Fin 2) ℚ := !![1, 0; 0, 1; 1, 1; 0, 0]

def c3X : Matrix (Fin 5) (Fin 2) ℚ := !![0, 0; 1, 0; 0, 1; 2, 1; 1, 0]

lemma c3rec : ∀ (i : Fin 4) (j : Fin 2),
    c3X i.succ j = c3A.mulVec (fun k => c3X i.castSucc k) j
      + c3B.mulVec (fun k => c3U i k) j := by
  intro i j
  fin_cases i <;> fin_cases j <;>
    norm_num [c3A, c3B, c3U, c3X, Matrix.mulVec, Matrix.dotProduct,
      Fin.sum_univ_two, Fin.succ, Fin.castSucc, Fin.castAdd, Fin.castLE,
      Matrix.one_apply]

lemma c3D_eq : lsqA c3X c3U = !![0,0,1,0; 1,0,0,1; 0,1,1,1; 2,1,0,0] := by
  ext i j
  fin_cases i <;> fin_cases j <;> rfl

lemma c3rank : fullColRank (lsqA c3X c3U) := by
  rw [c3D_eq]
  apply fullColRank_of_isUnit_det
  norm_num [Matrix.det_succ_row_zero, Fin.sum_univ_succ, Fin.succAbove,
    Fin.lt_def]

lemma c3Identify : identify_system c3X c3U = (c3Aᵀ, c3Bᵀ) :=
  identify_system_exact c3rec c3rank

/-! ## Characteristic polynomials: transposition and similarity invariance

The eigenvalue multiset of a square matrix (with multiplicities, in any field
extension) is determined by, and determines, its characteristic polynomial, so
"the eigenvalues of `Â` match those of `A`" is formalised as equality of
characteristic polynomials. -/

lemma charmatrix_transpose {n : ℕ} (M : Matrix (Fin n) (Fin n) ℚ) :
    Matrix.charmatrix Mᵀ = (Matrix.charmatrix M)ᵀ := by
  ext i j
  by_cases h : i = j
  · subst h
    simp
  · rw [Matrix.transpose_apply, Matrix.charmatrix_apply_ne _ _ _ h,
      Matrix.charmatrix_apply_ne _ _ _ (Ne.symm h), Matrix.transpose_apply]

lemma charpoly_transpose {n : ℕ} (M : Matrix (Fin n) (Fin n) ℚ) :
    Mᵀ.charpoly = M.charpoly := by
  unfold Matrix.charpoly
  rw [charmatrix_transpose, Matrix.det_transpose]

lemma charpoly_similar {n : ℕ} (P M : Matrix (Fin n) (Fin n) ℚ)
    (h : IsUnit P.det) : (P * M * P⁻¹).charpoly = M.charpoly := by
  unfold Matrix.charpoly
  have hinv : P * P⁻¹ = 1 := Matrix.mul_nonsing_inv P h
  have hmapmul : ∀ X Y : Matrix (Fin n) (Fin n) ℚ,
      (Polynomial.C : ℚ →+* _).mapMatrix (X * Y)
        = (Polynomial.C : ℚ →+* _).mapMatrix X
            * (Polynomial.C : ℚ →+* _).mapMatrix Y := by
    intro X Y
    simp
  have hmapone : (Polynomial.C : ℚ →+* _).mapMatrix
      (1 : Matrix (Fin n) (Fin n) ℚ) = 1 := by
    simp
  have key : Matrix.charmatrix (P * M * P⁻¹)
      = (Polynomial.C : ℚ →+* _).mapMatrix P * Matrix.charmatrix M
          * (Polynomial.C : ℚ →+* _).mapMatrix P⁻¹ := by
    unfold Matrix.charmatrix
    rw [Matrix.mul_sub, Matrix.sub_mul]
    congr 1
    · -- the scalar part is invariant under conjugation
      have hcomm : ∀ A : Matrix (Fin n) (Fin n) (Polynomial ℚ),
          Matrix.scalar (Fin n) (Polynomial.X : Polynomial ℚ) * A
            = A * Matrix.scalar (Fin n) (Polynomial.X : Polynomial ℚ) :=
        fun A => Matrix.scalar_commute _ (fun r => Commute.all _ r) A
      rw [← hcomm, Matrix.mul_assoc, ← hmapmul, hinv, hmapone, Matrix.mul_one]
    · rw [← hmapmul, ← hmapmul]
  rw [key, Matrix.det_mul, Matrix.det_mul]
  have hdet : ∀ Q : Matrix (Fin n) (Fin n) ℚ,
      ((Polynomial.C : ℚ →+* _).mapMatrix Q).det = Polynomial.C Q.det :=
    fun Q => (RingHom.map_det _ Q).symm
  rw [hdet, hdet]
  have hCmul : Polynomial.C P.det * (Matrix.charmatrix M).det * Polynomial.C P⁻¹.det
      = (Matrix.charmatrix M).det * Polynomial.C (P.det * P⁻¹.det) := by
    rw [Polynomial.C_mul]
    ring
  rw [hCmul, ← Matrix.det_mul, hinv, Matrix.det_one, Polynomial.C_1, mul_one]

end SysId

namespace RandSys

open Matrix

/-! ## The random system generator

The generator works over genuinely real/complex data (random angles on the
unit circle), so this part of the embedding is over `ℝ` and `ℂ`.  All ambient
`np.random.rand` draws are passed in as explicit parameters. -/

/-- Function `roots2coeffs` from the notebook: for roots `[r_1, ..., r_n]` the stored
value `coeffs[i - 1]` is `(-1)^i` times the sum, over all `i`-element
combinations of the roots (`itertools.combinations`), of the product of the
combination — the Vieta formulas, computed over `ℂ`
(`coeffs = np.zeros(n, dtype=complex)`). -/
noncomputable def roots2coeffs (roots : List ℂ) : List ℂ :=
  (List.range roots.length).map fun i =>
    (-1 : ℂ) ^ (i + 1) * ((roots.sublistsLen (i + 1)).map List.prod).sum

/-- Function `make_ccf_system_from_eigenvalues` from the notebook: `A` is zero except
for ones at the positions `(i, i + 1)` for `i < n - 1` and the last row
`a_matrix[n - 1, n - 1 - i] = -np.real(coeffs[i])`; `B` is all zeros except a
one in its last entry. -/
noncomputable def make_ccf_system_from_eigenvalues (eigvals : List ℂ) :
    Matrix (Fin eigvals.length) (Fin eigvals.length) ℝ
      × Matrix (Fin eigvals.length) (Fin 1) ℝ :=
  (Matrix.of fun i j =>
      if (i : ℕ) = eigvals.length - 1 then
        -((roots2coeffs eigvals).getD (eigvals.length - 1 - (j : ℕ)) 0).re
      else if (j : ℕ) = (i : ℕ) + 1 then 1 else 0,
   Matrix.of fun i _ => if (i : ℕ) = eigvals.length - 1 then 1 else 0)

/-- Entry `(i, j)` of the modal-canonical-form matrix assembled by
`scipy.linalg.block_diag` in `make_random_system_from_eigenvalues`: one
`1 × 1` block `[[z]]` per real eigenvalue, followed by one `2 × 2` block
`[[a, b], [-b, a]]` per complex eigenvalue `a + b·i`. -/
noncomputable def mcfEntry (er : List ℝ) (ec : List ℂ) (i j : ℕ) : ℝ :=
  if i < er.length then (if j = i then er.getD i 0 else 0)
  else if j < er.length then 0
  else if (i - er.length) / 2 = (j - er.length) / 2 then
    (if (i - er.length) % 2 = (j - er.length) % 2 then
      (ec.getD ((i - er.length) / 2) 0).re
     else if (i - er.length) % 2 = 0 then (ec.getD ((i - er.length) / 2) 0).im
     else -(ec.getD ((i - er.length) / 2) 0).im)
  else 0

/-- Function `make_random_system_from_eigenvalues` from the notebook: build the modal
canonical form `mcf_mat` with the given eigenvalues, conjugate it by the
random transformation `t_mat = np.random.rand(n, n) + np.identity(n)` (the
draw is the parameter `rand_t`; `np.linalg.inv` is modelled by the total
matrix inverse), and attach the random input matrix
`b_matrix = np.random.rand(n_states, n_inputs)` (draw `rand_b`).
`n_inputs` is a python default argument (`n_inputs=1`), and no caller ever
passes a different value. -/
noncomputable def make_random_system_from_eigenvalues
    (eigvals_real : List ℝ) (eigvals_complex : List ℂ) (n_inputs : ℕ)
    (rand_t rand_b : ℕ → ℕ → ℝ) :
    Matrix (Fin (eigvals_real.length + 2 * eigvals_complex.length))
        (Fin (eigvals_real.length + 2 * eigvals_complex.length)) ℝ
      × Matrix (Fin (eigvals_real.length + 2 * eigvals_complex.length))
          (Fin n_inputs) ℝ :=
  let mcf_mat : Matrix (Fin (eigvals_real.length + 2 * eigvals_complex.length))
      (Fin (eigvals_real.length + 2 * eigvals_complex.length)) ℝ :=
    Matrix.of fun i j => mcfEntry eigvals_real eigvals_complex i j
  let t_mat : Matrix (Fin (eigvals_real.length + 2 * eigvals_complex.length))
      (Fin (eigvals_real.length + 2 * eigvals_complex.length)) ℝ :=
    (Matrix.of fun i j => rand_t i.val j.val) + 1
  (t_mat⁻¹ * mcf_mat * t_mat, Matrix.of fun i j => rand_b i.val j.val)

/-- A generated system together with its dimensions: an `m × m`
state-transition matrix and an `m × k` input matrix. -/
structure GenSystem where
  m : ℕ
  k : ℕ
  a_matrix : Matrix (Fin m) (Fin m) ℝ
  b_matrix : Matrix (Fin m) (Fin k) ℝ

/-- The draws `z_random_complex` in `make_random_system`: magnitudes
`np.sqrt(z_min ** 2 + np.random.rand(...) * (z_max ** 2 - z_min ** 2))` —
uniform over the annulus by area — and angles `2 * np.pi * np.random.rand(...)`,
with the unit draws passed in as the streams `rmag` and `rang`. -/
noncomputable def zRandomComplex (z_min z_max : ℝ) (rmag rang : ℕ → ℝ)
    (count : ℕ) : List ℂ :=
  (List.range count).map fun i =>
    (Real.sqrt (z_min ^ 2 + rmag i * (z_max ^ 2 - z_min ^ 2)) : ℂ)
      * Complex.exp (Complex.I * (2 * Real.pi * rang i))

/-- The quantity `n_random = n_states - np.size(mr) - 2 * np.size(mc)`; python integer
arithmetic, hence over `ℤ`. -/
def nRandom (n_states : ℕ) (mr : List ℝ) (mc : List ℂ) : ℤ :=
  (n_states : ℤ) - mr.length - 2 * mc.length

/-- The list `z_complex = np.concatenate((z_random_complex, must_have_complex_eigenvalues))`. -/
noncomputable def zComplex (z_min z_max : ℝ) (rmag rang : ℕ → ℝ)
    (n_conj_pairs : ℕ) (mc : List ℂ) : List ℂ :=
  zRandomComplex z_min z_max rmag rang n_conj_pairs ++ mc

/-- The list `z_real`: the mandatory real eigenvalues, extended when `n_real ≠ 0` by the
random real draws `z_min + np.random.rand(n_real) * (z_max - z_min)`. -/
noncomputable def zReal (z_min z_max : ℝ) (rreal : ℕ → ℝ) (n_real : ℕ)
    (mr : List ℝ) : List ℝ :=
  if n_real ≠ 0 then
    mr ++ (List.range n_real).map fun i => z_min + rreal i * (z_max - z_min)
  else mr

/-- The list `z = np.concatenate((z_complex, z_real))` handed to
`make_ccf_system_from_eigenvalues` in the `ccf=True` branch of
`make_random_system` (`n_real = n_random % 2`,
`n_conj_pairs = int(np.floor(n_random / 2))`).  Note that it contains only one
member of each complex-conjugate pair. -/
noncomputable def ccfEigList (n_states : ℕ) (z_min z_max : ℝ) (mr : List ℝ)
    (mc : List ℂ) (rmag rang rreal : ℕ → ℝ) : List ℂ :=
  zComplex z_min z_max rmag rang ((nRandom n_states mr mc).toNat / 2) mc
    ++ (zReal z_min z_max rreal ((nRandom n_states mr mc).toNat % 2) mr).map
        fun x => (x : ℂ)

/-- Function `make_random_system` from the notebook.  The `np.random.rand` draws are the
explicit streams `rmag`/`rang` (complex magnitudes and angles), `rreal` (the
odd leftover real eigenvalue), and `rand_t`/`rand_b` (similarity transform and
input matrix of the non-canonical branch).  The leading
`assert n_random > 0` is modelled by returning `none` when it fails (the
python message reads: no random eigenvalues). -/
noncomputable def make_random_system (n_states n_inputs : ℕ) (z_min z_max : ℝ)
    (must_have_real_eigenvalues : List ℝ)
    (must_have_complex_eigenvalues : List ℂ) (ccf : Bool)
    (rmag rang rreal : ℕ → ℝ) (rand_t rand_b : ℕ → ℕ → ℝ) :
    Option GenSystem :=
  if 0 < nRandom n_states must_have_real_eigenvalues must_have_complex_eigenvalues then
    let n_random := (nRandom n_states must_have_real_eigenvalues
      must_have_complex_eigenvalues).toNat
    let n_real := n_random % 2
    let n_conj_pairs := n_random / 2
    let z_complex := zComplex z_min z_max rmag rang n_conj_pairs
      must_have_complex_eigenvalues
    let z_real := zReal z_min z_max rreal n_real must_have_real_eigenvalues
    if ccf then
      let z := ccfEigList n_states z_min z_max must_have_real_eigenvalues
        must_have_complex_eigenvalues rmag rang rreal
      some ⟨z.length, 1, (make_ccf_system_from_eigenvalues z).1,
        (make_ccf_system_from_eigenvalues z).2⟩
    else
      some ⟨z_real.length + 2 * z_complex.length, 1,
        (make_random_system_from_eigenvalues z_real z_complex 1 rand_t rand_b).1,
        (make_random_system_from_eigenvalues z_real z_complex 1 rand_t rand_b).2⟩
  else none

/-! ## Helper facts about `roots2coeffs` (the Vieta formulas) -/

lemma esymm_coe (l : List ℂ) (k : ℕ) :
    Multiset.esymm (↑l : Multiset ℂ) k = ((l.sublistsLen k).map List.prod).sum := by
  rw [Multiset.esymm, Multiset.powersetCard_coe]
  rw [Multiset.map_coe, Multiset.sum_coe, List.map_map]
  refine congrArg List.sum ?_
  refine List.map_congr_left fun s _ => ?_
  simp

lemma roots2coeffs_length (roots : List ℂ) :
    (roots2coeffs roots).length = roots.length := by
  simp [roots2coeffs]

lemma roots2coeffs_getD (roots : List ℂ) (i : ℕ) (hi : i < roots.length) :
    (roots2coeffs roots).getD i 0
      = (-1 : ℂ) ^ (i + 1) * ((roots.sublistsLen (i + 1)).map List.prod).sum := by
  rw [roots2coeffs]
  have hlen : i < ((List.range roots.length).map fun i =>
      (-1 : ℂ) ^ (i + 1) * ((roots.sublistsLen (i + 1)).map List.prod).sum).length := by
    simpa using hi
  rw [List.getD_eq_getElem _ _ hlen, List.getElem_map, List.getElem_range]

/-- `roots2coeffs` really computes the coefficients of the monic polynomial
with the given roots:
`∏ (X - rᵢ) = X^n + a₁ X^(n-1) + ... + aₙ` with `aᵢ = coeffs[i-1]`. -/
lemma prod_X_sub_C_eq_roots2coeffs (roots : List ℂ) :
    (roots.map fun r => Polynomial.X - Polynomial.C r).prod
      = Polynomial.X ^ roots.length
        + ∑ i ∈ Finset.range roots.length,
            Polynomial.C ((roots2coeffs roots).getD i 0)
              * Polynomial.X ^ (roots.length - 1 - i) := by
  have h := Multiset.prod_X_sub_X_eq_sum_esymm (↑roots : Multiset ℂ)
  have hcard : Multiset.card (↑roots : Multiset ℂ) = roots.length := by simp
  rw [hcard] at h
  have hprod : ((↑roots : Multiset ℂ).map fun t => Polynomial.X - Polynomial.C t).prod
      = (roots.map fun r => Polynomial.X - Polynomial.C r).prod := by
    rw [Multiset.map_coe, Multiset.prod_coe]
  rw [← hprod, h, Finset.sum_range_succ']
  have hesymm0 : (↑roots : Multiset ℂ).esymm 0 = 1 := by
    simp [Multiset.esymm]
  have h0 : (-1 : Polynomial ℂ) ^ 0 * (Polynomial.C ((↑roots : Multiset ℂ).esymm 0)
      * Polynomial.X ^ (roots.length - 0)) = Polynomial.X ^ roots.length := by
    rw [hesymm0]
    simp
  rw [h0, add_comm]
  congr 1
  refine Finset.sum_congr rfl fun i hi => ?_
  have hi1 : i < roots.length := Finset.mem_range.mp hi
  rw [roots2coeffs_getD roots i hi1, ← esymm_coe]
  rw [Polynomial.C_mul, Polynomial.C_pow, Polynomial.C_neg, Polynomial.C_1]
  have hsub : roots.length - (i + 1) = roots.length - 1 - i := by omega
  rw [hsub]
  ring

lemma roots2coeffs_two_three : roots2coeffs [2, 3] = [-5, 6] := by
  simp [roots2coeffs, List.range_succ]
  norm_num

lemma roots2coeffs_one_negone : roots2coeffs [1, -1] = [0, -1] := by
  simp [roots2coeffs, List.range_succ]

end RandSys

section Claims

open SysId RandSys Matrix

/-- C2 (amended): for a single-input system (`p = 1` — the only case in which
the numpy broadcast of the update line
`state_trace[i+1] = a_matrix @ state_trace[i] + (b_matrix * inpt[i]).squeeze()`
succeeds), `make_state_trace` with an `n×n` matrix `A`, an `n×1` matrix `B`,
an input sequence `U` of length `T` and an optional initial state (defaulting
to the zero vector) returns a state sequence `X` of length `T+1` with
`X[0]` the initial state and `X[i+1] = A·X[i] + B·U[i]` (exactly, over `ℚ`)
for every `i` in `[0, T)`. -/
theorem C2_simulator_recurrence {n T : ℕ} (A : Matrix (Fin n) (Fin n) ℚ)
    (B : Matrix (Fin n) (Fin 1) ℚ) (U : Matrix (Fin T) (Fin 1) ℚ)
    (initial_state : Option (Fin n → ℚ)) :
    ∃ X : Matrix (Fin (T + 1)) (Fin n) ℚ,
      make_state_trace A B U initial_state = some X ∧
      (∀ j, X 0 j = (initial_state.getD 0) j) ∧
      (∀ (i : Fin T) (j : Fin n),
        X i.succ j = A.mulVec (fun k => X i.castSucc k) j
          + B.mulVec (fun k => U i k) j) := by
  have htrace := make_state_trace_p1 A B U initial_state
  exact ⟨_, htrace, (make_state_trace_rec htrace).1,
    make_state_trace_rec_mulVec htrace⟩

/-- C2 counterexample: for an input dimension `p = 2` (claim says any `n×p`
input matrix) the update line raises a numpy broadcast error.  At
`A = B = I₂`, `U = [(1, 1)]`, `T = 1`, no state sequence is returned at all,
refuting the claim as stated. -/
theorem C2_counterexample :
    make_state_trace (1 : Matrix (Fin 2) (Fin 2) ℚ)
      (1 : Matrix (Fin 2) (Fin 2) ℚ) (!![1, 1] : Matrix (Fin 1) (Fin 2) ℚ)
      none = none :=
  make_state_trace_fail (by norm_num) (by norm_num) _ _ _ _

/-- C1 (amended): round-trip identification, up to the transposition
convention of `identify_system`.  For every noise-free state trace produced by
`make_state_trace` from a system `(A, B)` with input length `T ≥ n + p` whose
regression matrix has full column rank, `identify_system` returns exactly
`(Aᵀ, Bᵀ)` — the true system matrices transposed (exact over `ℚ`; with
floating-point arithmetic, to near machine precision).  The claim as stated —
that the returned pair equals `(A, B)` — fails; see `C1_counterexample`. -/
theorem C1_round_trip {n p T : ℕ} (A : Matrix (Fin n) (Fin n) ℚ)
    (B : Matrix (Fin n) (Fin p) ℚ) (U : Matrix (Fin T) (Fin p) ℚ)
    (x0 : Option (Fin n → ℚ)) (X : Matrix (Fin (T + 1)) (Fin n) ℚ)
    (hT : n + p ≤ T)
    (htrace : make_state_trace A B U x0 = some X)
    (hrank : fullColRank (lsqA X U)) :
    identify_system X U = (Aᵀ, Bᵀ) :=
  identify_system_exact (make_state_trace_rec_mulVec htrace) hrank

/-- C1 witness: the amended claim at the notebook system
`A = [[0, 1], [3/10, 1/5]]`, `B = [0; 1]` and impulse input of length 3. -/
theorem C1_round_trip_witness : identify_system exX exU = (exAᵀ, exBᵀ) :=
  C1_round_trip exA exB exU none exX (by norm_num) exTrace exRank

/-- C1 counterexample: at the same concrete instance all hypotheses of the
claim hold (noise-free simulator trace, `T = 3 ≥ n + p`, full-column-rank
regression matrix), yet the first matrix returned by `identify_system` is
`Aᵀ ≠ A`: the claim as stated is false. -/
theorem C1_counterexample :
    make_state_trace exA exB exU none = some exX ∧ 2 + 1 ≤ 3
      ∧ fullColRank (lsqA exX exU)
      ∧ (identify_system exX exU).1 ≠ exA := by
  refine ⟨exTrace, by norm_num, exRank, ?_⟩
  have h1 : (identify_system exX exU).1 = exAᵀ := by rw [exIdentify]
  rw [h1]
  intro h
  have h2 := congrFun (congrFun h 0) 1
  norm_num [exA, Matrix.transpose_apply] at h2

/-- C3 (amended): for every state trace `X` and input sequence `U`,
`identify_system` returns blocks of shapes `n×n` and `p×n` (the transposes of
the coefficient blocks of the claimed column convention, see `C10`); their
vertical stacking `M` minimises the squared Frobenius norm of the regression
residual `[X[:-1] | U] · M - X[1:]` over all `(n+p)×n` matrices, and among
all minimisers it has the least squared Frobenius norm (the minimum-norm
solution of `np.linalg.lstsq`, also when the regression is underdetermined).
The claim as stated — that the returned pair itself minimises the residual of
`X[i+1] ≈ Â·X[i] + B̂·U[i]` — fails by transposition; see
`C3_counterexample`. -/
theorem C3_least_squares {n p T : ℕ} (X : Matrix (Fin (T + 1)) (Fin n) ℚ)
    (U : Matrix (Fin T) (Fin p) ℚ) :
    (∀ M : Matrix (Fin (n + p)) (Fin n) ℚ,
      frobSq (lsqA X U * stackAB (identify_system X U).1 (identify_system X U).2
          - lsqB X)
        ≤ frobSq (lsqA X U * M - lsqB X)) ∧
    (∀ M : Matrix (Fin (n + p)) (Fin n) ℚ,
      frobSq (lsqA X U * M - lsqB X)
        = frobSq (lsqA X U * stackAB (identify_system X U).1 (identify_system X U).2
            - lsqB X) →
      frobSq (stackAB (identify_system X U).1 (identify_system X U).2)
        ≤ frobSq M) := by
  rw [stackAB_identify_system]
  exact ⟨residual_le_of_isLstsqSol (lstsq_isLstsqSol _ _),
    fun M hM => norm_le_of_isLstsqSol (lstsq_isLstsqSol _ _) M hM⟩

/-- C3 witness: the amended claim instantiated at the two-input trace `c3X`,
`c3U`, with the minimisation hypothesis discharged at the solution itself. -/
theorem C3_least_squares_witness :
    frobSq (lsqA c3X c3U
        * stackAB (identify_system c3X c3U).1 (identify_system c3X c3U).2
        - lsqB c3X)
      ≤ frobSq (lsqA c3X c3U * (0 : Matrix (Fin (2 + 2)) (Fin 2) ℚ) - lsqB c3X)
    ∧ frobSq (stackAB (identify_system c3X c3U).1 (identify_system c3X c3U).2)
        ≤ frobSq (stackAB (identify_system c3X c3U).1 (identify_system c3X c3U).2) :=
  ⟨(C3_least_squares c3X c3U).1 0, (C3_least_squares c3X c3U).2 _ rfl⟩

/-- C3 counterexample: at the exact two-input trace `(c3X, c3U)` (full-rank
regression), the pair returned by `identify_system` does not minimise the
residual of the claimed relation `X[i+1] ≈ Â·X[i] + B̂·U[i]`: the true system
`(c3A, c3B)` achieves residual `0` while the returned (transposed) pair has
residual `7`. -/
theorem C3_counterexample :
    ¬ (∀ Ah Bh : Matrix (Fin 2) (Fin 2) ℚ,
        residC c3X c3U (identify_system c3X c3U).1 (identify_system c3X c3U).2
          ≤ residC c3X c3U Ah Bh) := by
  intro h
  have h1 := h c3A c3B
  rw [c3Identify] at h1
  have hz : residC c3X c3U c3A c3B = 0 := by
    norm_num [residC, c3A, c3B, c3U, c3X, Matrix.mulVec, Matrix.dotProduct,
      Fin.sum_univ_succ, Fin.succ, Fin.castSucc, Fin.castAdd, Fin.castLE,
      Matrix.one_apply]
  have hs : residC c3X c3U c3Aᵀ c3Bᵀ = 7 := by
    norm_num [residC, c3A, c3B, c3U, c3X, Matrix.mulVec, Matrix.dotProduct,
      Fin.sum_univ_succ, Fin.succ, Fin.castSucc, Fin.castAdd, Fin.castLE,
      Matrix.one_apply, Matrix.transpose_apply]
  rw [hz, hs] at h1
  norm_num at h1

/-- C4 (amended): similarity invariance, up to the transposition convention of
`identify_system`.  If a noise-free trace of `(A, B)` is mapped through
`transform_state_trace` with an invertible matrix `T` and the transformed
regression matrix has full column rank, identification on the transformed
trace returns exactly `((T·A·T⁻¹)ᵀ, (T·B)ᵀ)`, and the characteristic
polynomial (hence the eigenvalue multiset) of the recovered state-transition
matrix equals that of `A`, for every such `T`.  The claim untransposed form
`Â = T·A·T⁻¹` fails; see `C4_counterexample`. -/
theorem C4_similarity {n p T : ℕ} (A : Matrix (Fin n) (Fin n) ℚ)
    (B : Matrix (Fin n) (Fin p) ℚ) (U : Matrix (Fin T) (Fin p) ℚ)
    (x0 : Option (Fin n → ℚ)) (X : Matrix (Fin (T + 1)) (Fin n) ℚ)
    (Tm rand_t : Matrix (Fin n) (Fin n) ℚ)
    (htrace : make_state_trace A B U x0 = some X)
    (hTm : IsUnit Tm.det)
    (hrank : fullColRank (lsqA (transform_state_trace X (some Tm) rand_t) U)) :
    identify_system (transform_state_trace X (some Tm) rand_t) U
        = ((Tm * A * Tm⁻¹)ᵀ, (Tm * B)ᵀ)
      ∧ ((identify_system (transform_state_trace X (some Tm) rand_t) U).1).charpoly
          = A.charpoly := by
  have hrec0 := make_state_trace_rec_mulVec htrace
  have hX2 : ∀ (r : Fin (T + 1)) (j : Fin n),
      transform_state_trace X (some Tm) rand_t r j
        = Tm.mulVec (fun k => X r k) j := by
    intro r j
    show (X * Tmᵀ) r j = _
    rw [Matrix.mul_apply, Matrix.mulVec, Matrix.dotProduct]
    exact Finset.sum_congr rfl fun k _ => by
      rw [Matrix.transpose_apply]
      ring
  have hrec : ∀ (i : Fin T) (j : Fin n),
      transform_state_trace X (some Tm) rand_t i.succ j
        = (Tm * A * Tm⁻¹).mulVec
            (fun k => transform_state_trace X (some Tm) rand_t i.castSucc k) j
          + (Tm * B).mulVec (fun k => U i k) j := by
    intro i j
    rw [hX2 i.succ j]
    have hXe : (fun k => X i.succ k)
        = A.mulVec (fun k => X i.castSucc k) + B.mulVec (fun k => U i k) := by
      funext k
      rw [hrec0 i k]
      rfl
    rw [hXe, Matrix.mulVec_add]
    have hfun : (fun k => transform_state_trace X (some Tm) rand_t i.castSucc k)
        = Tm.mulVec (fun k => X i.castSucc k) :=
      funext fun k => hX2 i.castSucc k
    rw [hfun]
    have e1 : (Tm * A * Tm⁻¹).mulVec (Tm.mulVec fun k => X i.castSucc k)
        = Tm.mulVec (A.mulVec fun k => X i.castSucc k) := by
      rw [Matrix.mulVec_mulVec, Matrix.mul_assoc (Tm * A),
        Matrix.nonsing_inv_mul Tm hTm, Matrix.mul_one, ← Matrix.mulVec_mulVec]
    have e2 : (Tm * B).mulVec (fun k => U i k)
        = Tm.mulVec (B.mulVec fun k => U i k) :=
      (Matrix.mulVec_mulVec _ _ _).symm
    rw [e1, e2]
    rfl
  have hres := identify_system_exact hrec hrank
  refine ⟨hres, ?_⟩
  rw [hres]
  show ((Tm * A * Tm⁻¹)ᵀ).charpoly = A.charpoly
  exact (charpoly_transpose _).trans (charpoly_similar Tm A hTm)

/-- C4 witness: the amended claim at the notebook transformation
`T = [[3, 1], [5, 2]]` applied to the concrete trace. -/
theorem C4_similarity_witness :
    identify_system (transform_state_trace exX (some exT) 0) exU
        = ((exT * exA * exT⁻¹)ᵀ, (exT * exB)ᵀ)
      ∧ ((identify_system (transform_state_trace exX (some exT) 0) exU).1).charpoly
          = exA.charpoly :=
  C4_similarity exA exB exU none exX exT 0 exTrace
    (by rw [show exT.det = 1 from by norm_num [Matrix.det_fin_two, exT]]
        exact isUnit_one)
    (by rw [exTX_eq]; exact exTXrank)

/-- C4 counterexample: at the same concrete instance all hypotheses of the
claim hold, yet the first matrix returned on the transformed trace is
`(T·A·T⁻¹)ᵀ ≠ T·A·T⁻¹`: the claim as stated is false. -/
theorem C4_counterexample :
    make_state_trace exA exB exU none = some exX ∧ IsUnit exT.det
      ∧ fullColRank (lsqA (transform_state_trace exX (some exT) 0) exU)
      ∧ (identify_system (transform_state_trace exX (some exT) 0) exU).1
          ≠ exT * exA * exT⁻¹ := by
  refine ⟨exTrace, ?_, ?_, ?_⟩
  · rw [show exT.det = 1 from by norm_num [Matrix.det_fin_two, exT]]
    exact isUnit_one
  · rw [exTX_eq]
    exact exTXrank
  · rw [exTX_eq, exTXIdentify, exTAiT]
    intro h
    have h2 := congrFun (congrFun h 0) 1
    norm_num [Matrix.transpose_apply] at h2

/-- C10: `identify_system` on a `(T+1)×n` trace and `T×p` input returns a pair
of shapes `(n, n)` and `(p, n)` (so in the type) that are the transposes of
the least-squares coefficient blocks: their vertical stacking minimises the
Frobenius norm of `[X[0..T-1] | U]·M − X[1..T]`, and for exact data
`X[i+1] = A·X[i] + B·U[i]` with a full-column-rank regressor the two returned
arrays equal `Aᵀ` and `Bᵀ` — a caller must transpose them to obtain
`A` and `B`. -/
theorem C10_identify_blocks {n p T : ℕ} (X : Matrix (Fin (T + 1)) (Fin n) ℚ)
    (U : Matrix (Fin T) (Fin p) ℚ) :
    (∀ M : Matrix (Fin (n + p)) (Fin n) ℚ,
      frobSq (lsqA X U * stackAB (identify_system X U).1 (identify_system X U).2
          - lsqB X)
        ≤ frobSq (lsqA X U * M - lsqB X)) ∧
    (∀ (A : Matrix (Fin n) (Fin n) ℚ) (B : Matrix (Fin n) (Fin p) ℚ),
      (∀ (i : Fin T) (j : Fin n),
        X i.succ j = A.mulVec (fun k => X i.castSucc k) j
          + B.mulVec (fun k => U i k) j) →
      fullColRank (lsqA X U) →
      identify_system X U = (Aᵀ, Bᵀ)) := by
  constructor
  · rw [stackAB_identify_system]
    exact residual_le_of_isLstsqSol (lstsq_isLstsqSol _ _)
  · intro A B hrec hrank
    exact identify_system_exact hrec hrank

/-- C10 witness: both clauses at the concrete instance `(exX, exU)` generated
by `(exA, exB)`. -/
theorem C10_identify_blocks_witness :
    frobSq (lsqA exX exU
        * stackAB (identify_system exX exU).1 (identify_system exX exU).2
        - lsqB exX)
      ≤ frobSq (lsqA exX exU * (0 : Matrix (Fin (2 + 1)) (Fin 2) ℚ) - lsqB exX)
    ∧ identify_system exX exU = (exAᵀ, exBᵀ) :=
  ⟨(C10_identify_blocks exX exU).1 0,
   (C10_identify_blocks exX exU).2 exA exB exX_rec exRank⟩

/-- C7: `roots2coeffs` returns, for `n` ordered roots, the `n` coefficients
`[a₁, ..., aₙ]` of the monic degree-`n` polynomial with exactly those roots
(`∏(X - rᵢ) = Xⁿ + a₁Xⁿ⁻¹ + ... + aₙ`), with
`aᵢ = (-1)ⁱ · (sum over all i-element subsets of the roots of the product of
the subset)`; in particular roots `[2, 3]` give `[-5, 6]`, roots `[1, -1]`
give `[0, -1]`, and the empty root list gives no coefficients. -/
theorem C7_roots2coeffs :
    (∀ roots : List ℂ,
      (roots2coeffs roots).length = roots.length
      ∧ (roots.map fun r => Polynomial.X - Polynomial.C r).prod
          = Polynomial.X ^ roots.length
            + ∑ i ∈ Finset.range roots.length,
                Polynomial.C ((roots2coeffs roots).getD i 0)
                  * Polynomial.X ^ (roots.length - 1 - i)
      ∧ ∀ i, i < roots.length →
          (roots2coeffs roots).getD i 0
            = (-1 : ℂ) ^ (i + 1) * ((roots.sublistsLen (i + 1)).map List.prod).sum)
    ∧ roots2coeffs [2, 3] = [-5, 6]
    ∧ roots2coeffs [1, -1] = [0, -1]
    ∧ roots2coeffs [] = [] :=
  ⟨fun roots => ⟨roots2coeffs_length roots, prod_X_sub_C_eq_roots2coeffs roots,
      fun i hi => roots2coeffs_getD roots i hi⟩,
   roots2coeffs_two_three, roots2coeffs_one_negone, rfl⟩

/-- C7 witness: the subset-sum formula instantiated at roots `[2, 3]`, `i = 0`. -/
theorem C7_roots2coeffs_witness :
    (roots2coeffs [2, 3]).getD 0 0
      = (-1 : ℂ) ^ (0 + 1)
        * ((([2, 3] : List ℂ).sublistsLen (0 + 1)).map List.prod).sum :=
  (C7_roots2coeffs.1 [2, 3]).2.2 0 (by norm_num)

/-- C6 (amended): for every call to `make_ccf_system_from_eigenvalues` (which
is exactly what `make_random_system` with `ccf=True` returns), the resulting
state-transition matrix has all *super*-diagonal entries `(i, i+1)` equal to 1
(the claim "sub-diagonal" — the entries directly below the main diagonal —
is false: they hold characteristic-polynomial coefficients; see
`C6_counterexample`), its last row holds the negated (real parts of the)
characteristic-polynomial coefficients in reverse order, and the input matrix
is the standard basis vector selecting the last state coordinate. -/
theorem C6_ccf_structure :
    (∀ eigvals : List ℂ,
      (∀ i j : Fin eigvals.length,
        (i : ℕ) + 1 < eigvals.length → (j : ℕ) = (i : ℕ) + 1 →
        (make_ccf_system_from_eigenvalues eigvals).1 i j = 1)
      ∧ (∀ i j : Fin eigvals.length, (i : ℕ) = eigvals.length - 1 →
          (make_ccf_system_from_eigenvalues eigvals).1 i j
            = -((roots2coeffs eigvals).getD (eigvals.length - 1 - (j : ℕ)) 0).re)
      ∧ (∀ (i : Fin eigvals.length) (k : Fin 1),
          (make_ccf_system_from_eigenvalues eigvals).2 i k
            = if (i : ℕ) = eigvals.length - 1 then 1 else 0))
    ∧ (∀ (n_states n_inputs : ℕ) (z_min z_max : ℝ) (mr : List ℝ) (mc : List ℂ)
        (rmag rang rreal : ℕ → ℝ) (rand_t rand_b : ℕ → ℕ → ℝ),
        0 < nRandom n_states mr mc →
        make_random_system n_states n_inputs z_min z_max mr mc true
            rmag rang rreal rand_t rand_b
          = some ⟨(ccfEigList n_states z_min z_max mr mc rmag rang rreal).length, 1,
              (make_ccf_system_from_eigenvalues
                (ccfEigList n_states z_min z_max mr mc rmag rang rreal)).1,
              (make_ccf_system_from_eigenvalues
                (ccfEigList n_states z_min z_max mr mc rmag rang rreal)).2⟩) := by
  constructor
  · intro eigvals
    refine ⟨?_, ?_, ?_⟩
    · intro i j h1 h2
      show (if (i : ℕ) = eigvals.length - 1 then
          -((roots2coeffs eigvals).getD (eigvals.length - 1 - (j : ℕ)) 0).re
        else if (j : ℕ) = (i : ℕ) + 1 then 1 else 0) = 1
      rw [if_neg (by omega), if_pos h2]
    · intro i j h1
      show (if (i : ℕ) = eigvals.length - 1 then
          -((roots2coeffs eigvals).getD (eigvals.length - 1 - (j : ℕ)) 0).re
        else if (j : ℕ) = (i : ℕ) + 1 then 1 else 0)
        = -((roots2coeffs eigvals).getD (eigvals.length - 1 - (j : ℕ)) 0).re
      rw [if_pos h1]
    · intro i k
      rfl
  · intro n_states n_inputs z_min z_max mr mc rmag rang rreal rand_t rand_b h
    unfold make_random_system
    rw [if_pos h]
    rfl

/-- C6 witness: the amended structure at eigenvalues `[2, 3]` (superdiagonal
one, last-row coefficient) and the `ccf=True` routing of `make_random_system`
at `n_states = 4`. -/
theorem C6_ccf_structure_witness :
    (make_ccf_system_from_eigenvalues [2, 3]).1 ⟨0, by norm_num⟩ ⟨1, by norm_num⟩ = 1
    ∧ (make_ccf_system_from_eigenvalues [2, 3]).1 ⟨1, by norm_num⟩ ⟨0, by norm_num⟩
        = -((roots2coeffs [2, 3]).getD 1 0).re
    ∧ make_random_system 4 1 0 1 [] [] true (fun _ => 0) (fun _ => 0)
        (fun _ => 0) (fun _ _ => 0) (fun _ _ => 0)
      = some ⟨(ccfEigList 4 0 1 [] [] (fun _ => 0) (fun _ => 0) (fun _ => 0)).length, 1,
          (make_ccf_system_from_eigenvalues
            (ccfEigList 4 0 1 [] [] (fun _ => 0) (fun _ => 0) (fun _ => 0))).1,
          (make_ccf_system_from_eigenvalues
            (ccfEigList 4 0 1 [] [] (fun _ => 0) (fun _ => 0) (fun _ => 0))).2⟩ :=
  ⟨(C6_ccf_structure.1 [2, 3]).1 _ _ (by norm_num) (by norm_num),
   (C6_ccf_structure.1 [2, 3]).2.1 _ _ (by norm_num),
   C6_ccf_structure.2 4 1 0 1 [] [] _ _ _ _ _ (by norm_num [nRandom])⟩

/-- C6 counterexample: for eigenvalues `[2, 3]` the sub-diagonal entry
`A[1, 0]` of the canonical-form matrix is `-6`, not `1`: the claim
"sub-diagonal entries all equal to 1" is false (the ones sit on the
super-diagonal). -/
theorem C6_counterexample :
    (make_ccf_system_from_eigenvalues [2, 3]).1 ⟨1, by norm_num⟩ ⟨0, by norm_num⟩
      ≠ 1 := by
  have h : (make_ccf_system_from_eigenvalues [2, 3]).1 ⟨1, by norm_num⟩ ⟨0, by norm_num⟩
      = -((roots2coeffs [2, 3]).getD 1 0).re := by
    show (if (1 : ℕ) = ([2, 3] : List ℂ).length - 1 then
        -((roots2coeffs [2, 3]).getD (([2, 3] : List ℂ).length - 1 - 0) 0).re
      else if (0 : ℕ) = (1 : ℕ) + 1 then 1 else 0)
      = -((roots2coeffs [2, 3]).getD 1 0).re
    norm_num
  rw [h, roots2coeffs_two_three]
  norm_num

/-- C8: `make_random_system` halts with its assertion failure (modelled by
`none`) exactly when the mandatory-eigenvalue count
`#real + 2·#complex` meets or exceeds `n_states`, i.e. exactly when no random
eigenvalue remains to be drawn — for every choice of the other arguments and
draws. -/
theorem C8_assert_iff (n_states n_inputs : ℕ) (z_min z_max : ℝ)
    (mr : List ℝ) (mc : List ℂ) (ccf : Bool) (rmag rang rreal : ℕ → ℝ)
    (rand_t rand_b : ℕ → ℕ → ℝ) :
    make_random_system n_states n_inputs z_min z_max mr mc ccf
        rmag rang rreal rand_t rand_b = none
      ↔ n_states ≤ mr.length + 2 * mc.length := by
  unfold make_random_system
  by_cases h : 0 < nRandom n_states mr mc
  · rw [if_pos h]
    unfold nRandom at h
    cases ccf <;> simp <;> omega
  · rw [if_neg h]
    unfold nRandom at h
    simp
    omega

/-- C5 (code bug): with `ccf=True` the returned state-transition matrix does
not have the requested dimension: at `n_states = 4` (no mandatory
eigenvalues) the eigenvalue list handed to the canonical-form builder
contains only one member of each random conjugate pair, so the returned
matrix is `2 × 2`, contradicting the docstring of the function
(`n_states: the number of states you want the system to have`). -/
theorem C5_ccf_dimension_bug (rmag rang rreal : ℕ → ℝ)
    (rand_t rand_b : ℕ → ℕ → ℝ) :
    ∃ s : GenSystem,
      make_random_system 4 1 0 1 [] [] true rmag rang rreal rand_t rand_b
        = some s
      ∧ s.m = 2 ∧ s.m ≠ 4 := by
  have h : make_random_system 4 1 0 1 [] [] true rmag rang rreal rand_t rand_b
      = some ⟨(ccfEigList 4 0 1 [] [] rmag rang rreal).length, 1,
          (make_ccf_system_from_eigenvalues
            (ccfEigList 4 0 1 [] [] rmag rang rreal)).1,
          (make_ccf_system_from_eigenvalues
            (ccfEigList 4 0 1 [] [] rmag rang rreal)).2⟩ := by
    unfold make_random_system
    rw [if_pos (by norm_num [nRandom])]
    rfl
  have hlen : (ccfEigList 4 0 1 [] [] rmag rang rreal).length = 2 := by
    have h4 : Int.toNat 4 = 4 := rfl
    norm_num [ccfEigList, zComplex, zRandomComplex, zReal, nRandom, h4]
  refine ⟨_, h, hlen, ?_⟩
  show (ccfEigList 4 0 1 [] [] rmag rang rreal).length ≠ 4
  rw [hlen]
  norm_num

/-- C9 (code bug): `make_random_system` ignores its `n_inputs` argument — the
non-canonical branch calls `make_random_system_from_eigenvalues` without
forwarding it, so the returned input matrix always has one column.  At the
call `make_random_system(2, 3, ...)` the returned `B` is `2 × 1`, not the
requested `2 × 3`. -/
theorem C9_n_inputs_ignored (rmag rang rreal : ℕ → ℝ)
    (rand_t rand_b : ℕ → ℕ → ℝ) :
    ∃ s : GenSystem,
      make_random_system 2 3 0 1 [] [] false rmag rang rreal rand_t rand_b
        = some s
      ∧ s.k = 1 ∧ s.k ≠ 3 := by
  unfold make_random_system
  rw [if_pos (by norm_num [nRandom])]
  exact ⟨_, rfl, rfl, by norm_num⟩

end Claims
